import Mathlib

/-!
# Verification of the WhatsApp Reel video splitter backend

A shallow embedding of `flask-api-backend.py`.  Durations and timestamps are
modelled as rationals (`ℚ`); the external `ffmpeg`/`ffprobe` processes are
modelled as oracles supplying, per segment index, the observable outcome of the
subprocess call; storage directories are modelled as lists of entries
(name, mtime, file/dir flag) or as finite sets of filenames.
-/

namespace ReelSplitter

/-- Source constant `ALLOWED_EXTENSIONS = \x7b'mp4', 'mov', 'avi', 'mkv', 'webm'\x7d`. -/
def ALLOWED_EXTENSIONS : List String := ["mp4", "mov", "avi", "mkv", "webm"]

/-- Python `filename.rsplit('.', 1)[1]` when `'.' in filename`: the characters
after the last dot of the string. -/
def afterLastDot (s : List Char) : List Char :=
  (s.reverse.takeWhile (fun c => c ≠ '.')).reverse

/-- Source `allowed_file(filename)`:
`'.' in filename and filename.rsplit('.', 1)[1].lower() in ALLOWED_EXTENSIONS`. -/
def allowed_file (filename : String) : Bool :=
  filename.data.contains '.' &&
    ALLOWED_EXTENSIONS.contains (String.mk ((afterLastDot filename.data).map Char.toLower))

/-- A directory entry as seen by `os.listdir`: its name, its last-modified time
`os.path.getmtime` (seconds), and whether it is a regular file
(`os.path.isfile`) as opposed to a directory. -/
structure FSEntry where
  name : String
  mtime : ℚ
  isFile : Bool
deriving DecidableEq

/-- Duration `timedelta(hours=1)` in seconds. -/
def oneHour : ℚ := 3600

/-- Source `cleanup_old_files` restricted to a single folder.  The Python code deletes
a regular file with `os.remove` and a directory with `shutil.rmtree`, in both
cases exactly when `now - file_time > timedelta(hours=1)`; so the surviving
entries are those with `now - mtime ≤ 3600`. -/
def cleanup_old_files (now : ℚ) (folder : List FSEntry) : List FSEntry :=
  folder.filter fun e =>
    if e.isFile then
      if now - e.mtime > oneHour then false else true
    else
      if now - e.mtime > oneHour then false else true

/-- The observable outcome of one `subprocess.run(ffmpeg ...)` extraction:
the process return code, whether the output file exists afterwards
(`os.path.exists(output_path)`), and its size in bytes (`os.path.getsize`). -/
structure ExtractOutcome where
  returncode : Int
  created : Bool
  sizeBytes : Nat
deriving DecidableEq

/-- Python format spec `02d`: decimal, zero-padded to width at least two. -/
def pad2 (n : Nat) : String := if n < 10 then "0" ++ toString n else toString n

/-- The output filename of clip number `n` (1-based): `f"reel_{n:02d}.mp4"`
where the code passes `n = i + 1`. -/
def reelName (n : Nat) : String := "reel_" ++ pad2 n ++ ".mp4"

/-- Source `num_clips = math.ceil(total_duration / split_duration)`. -/
def num_clips (total_duration split_duration : ℚ) : ℤ :=
  ⌈total_duration / split_duration⌉

/-- Source `start_time = i * split_duration` for segment index `i` (0-based). -/
def start_time (split_duration : ℚ) (i : Nat) : ℚ := i * split_duration

/-- Source `clip_duration` for segment index `i` out of `n = num_clips`:
`total_duration - start_time` for the last index, `split_duration` otherwise. -/
def clip_duration (total_duration split_duration : ℚ) (n i : Nat) : ℚ :=
  if i = n - 1 then total_duration - start_time split_duration i
  else split_duration

/-- The per-index `(start_time, clip_duration)` schedule that the loop in
`split_video` computes before invoking ffmpeg. -/
def planSegments (total_duration split_duration : ℚ) : List (ℚ × ℚ) :=
  (List.range (num_clips total_duration split_duration).toNat).map fun i =>
    (start_time split_duration i,
     clip_duration total_duration split_duration
       (num_clips total_duration split_duration).toNat i)

/-- One record of `clips_info`.  Python additionally rounds `size_mb` to two
decimal places for display; that display rounding is not modelled. -/
structure Clip where
  number : Nat
  filename : String
  start : ℚ
  «end» : ℚ
  duration : ℚ
  size_mb : ℚ
deriving DecidableEq

/-- The `clips_info` list built by `split_video`: segment `i` is appended iff
`result.returncode == 0 and os.path.exists(output_path)`, where `run i` is the
outcome of the ffmpeg invocation for segment `i`. -/
def splitClips (total_duration split_duration : ℚ)
    (run : Nat → ExtractOutcome) : List Clip :=
  (List.range (num_clips total_duration split_duration).toNat).filterMap fun i =>
    let n := (num_clips total_duration split_duration).toNat
    let st := start_time split_duration i
    let cd := clip_duration total_duration split_duration n i
    let r := run i
    if r.returncode = 0 ∧ r.created then
      some { number := i + 1
             filename := reelName (i + 1)
             start := st
             «end» := st + cd
             duration := cd
             size_mb := (r.sizeBytes : ℚ) / (1024 * 1024) }
    else none

/-- Contents of `output_dir` after the split loop: whatever the directory held
before, plus the output files ffmpeg actually created (`-y` overwrites an
existing file of the same name). -/
def splitDirAfter (dir0 : Finset String) (total_duration split_duration : ℚ)
    (run : Nat → ExtractOutcome) : Finset String :=
  dir0 ∪ ((Finset.range (num_clips total_duration split_duration).toNat).filter
      (fun i => (run i).created)).image (fun i => reelName (i + 1))

/-- Python `file.endswith('.mp4')`. -/
def endsWithMp4 (file : String) : Bool :=
  List.isSuffixOf ".mp4".data file.data

/-- Source `create_zip`: every file of `output_dir` whose name ends in `.mp4` is
written into the archive under its bare name (`zipf.write(file_path, file)`),
i.e. with no directory prefix. -/
def create_zip (outputDir : Finset String) : Finset String :=
  outputDir.filter (fun f => endsWithMp4 f)

/-- Result of a `POST /upload` request: the HTTP status code and the contents
of the `uploads` folder afterwards. -/
structure UploadOutcome where
  status : Nat
  uploads : List FSEntry
deriving DecidableEq

/-- Source `upload_video`, the `POST /upload` handler.  It first runs
`cleanup_old_files` (which sweeps both storage folders; only the `uploads`
folder is tracked here, the handler itself never touches `outputs`), then
validates the request:
`fileField = none` models `'video' not in request.files`; an empty filename
and a disallowed extension are each rejected with 400.  On success the file is
saved as `f"{job_id}_{filename}"` (`file.save` overwrites an existing path of
the same name) and probed; `probe_ok` tells whether `get_video_info` succeeds,
and on failure the handler runs `os.remove(filepath)` and returns 500.
`secure` models werkzeug's `secure_filename`. -/
def upload_video (now : ℚ) (uploads : List FSEntry) (fileField : Option String)
    (secure : String → String) (job_id : String) (probe_ok : Bool) :
    UploadOutcome :=
  let swept := cleanup_old_files now uploads
  match fileField with
  | none => ⟨400, swept⟩
  | some fn =>
    if fn = "" then ⟨400, swept⟩
    else if ¬ allowed_file fn then ⟨400, swept⟩
    else
      let path := job_id ++ "_" ++ secure fn
      let saved := swept.filter (fun e => e.name ≠ path) ++ [⟨path, now, true⟩]
      if probe_ok then ⟨200, saved⟩
      else ⟨500, saved.filter (fun e => e.name ≠ path)⟩

/-- Result of a `POST /split` request: the HTTP status code, the returned
`clips` list, the job's output directory contents, and the contents of the
archive written by `create_zip` (meaningful on the 200 path). -/
structure SplitOutcome where
  status : Nat
  clips : List Clip
  outDir : Finset String
  zipFiles : Finset String
deriving DecidableEq

/-- Source `split_video_endpoint`, the `POST /split` handler.  Returns 400 when
`job_id` is falsy (`if not job_id`: the key is absent or the string is empty),
404 when no file of the `uploads` folder starts with `job_id`
(`f.startswith(job_id)` is embedded as `List.isPrefixOf` on the characters),
and otherwise splits the first matching file and zips the job's output
directory.  `durationOf` models `get_video_duration` (the ffprobe call) and
`run` the per-segment ffmpeg invocations; `split_duration` is the request
value, already defaulted to 30 by `data.get('split_duration', 30)`. -/
def split_video_endpoint (uploads : List FSEntry) (job_id : Option String)
    (split_duration : ℚ) (durationOf : String → ℚ) (run : Nat → ExtractOutcome)
    (outDir0 : Finset String) : SplitOutcome :=
  match job_id with
  | none => ⟨400, [], outDir0, ∅⟩
  | some jid =>
    if jid = "" then ⟨400, [], outDir0, ∅⟩
    else
      match uploads.filter (fun e => List.isPrefixOf jid.data e.name.data) with
      | [] => ⟨404, [], outDir0, ∅⟩
      | v :: _ =>
        let D := durationOf v.name
        let dir1 := splitDirAfter outDir0 D split_duration run
        ⟨200, splitClips D split_duration run, dir1, create_zip dir1⟩

/-! ## Basic facts about the schedule -/

/-- A positive duration and a positive split duration give a positive clip
count. -/
lemma num_clips_pos {D S : ℚ} (hD : 0 < D) (hS : 0 < S) :
    0 < num_clips D S :=
  Int.ceil_pos.mpr (div_pos hD hS)

/-- Natural-number version of `num_clips_pos`. -/
lemma num_clips_toNat_pos {D S : ℚ} (hD : 0 < D) (hS : 0 < S) :
    0 < (num_clips D S).toNat := by
  have := num_clips_pos hD hS
  omega

/-- Sums over `List.range` coincide with sums over `Finset.range`. -/
lemma range_map_sum (f : ℕ → ℚ) (n : ℕ) :
    ((List.range n).map f).sum = ∑ i ∈ Finset.range n, f i := by
  induction n with
  | zero => simp
  | succ n ih =>
      rw [List.range_succ, List.map_append, List.sum_append,
        Finset.sum_range_succ, ih]
      simp

/-- Unfolding of the schedule's length. -/
lemma planSegments_length (D S : ℚ) :
    (planSegments D S).length = (num_clips D S).toNat := by
  simp [planSegments]

/-- Unfolding of the schedule's entries. -/
lemma planSegments_get (D S : ℚ) (i : ℕ) (h : i < (planSegments D S).length) :
    (planSegments D S).get ⟨i, h⟩ =
      (start_time S i,
       clip_duration D S (num_clips D S).toNat i) := by
  simp [planSegments]

/-- **C1.**  For a source of duration `D > 0` and split duration `S > 0`, the
split plans exactly `⌈D / S⌉` segments; segment `i` (0-based) starts at
`i * S`; the planned durations sum to `D` exactly; and each segment after the
first starts exactly where its predecessor ends (no gaps, no overlaps). -/
theorem C1_segment_plan (D S : ℚ) (hD : 0 < D) (hS : 0 < S) :
    (planSegments D S).length = (num_clips D S).toNat ∧
    (∀ i (h : i < (planSegments D S).length),
       ((planSegments D S).get ⟨i, h⟩).1 = i * S) ∧
    ((planSegments D S).map Prod.snd).sum = D ∧
    (∀ i (h : i + 1 < (planSegments D S).length),
       ((planSegments D S).get ⟨i + 1, h⟩).1
         = ((planSegments D S).get ⟨i, Nat.lt_of_succ_lt h⟩).1
           + ((planSegments D S).get ⟨i, Nat.lt_of_succ_lt h⟩).2) := by
  have hpos : 0 < (num_clips D S).toNat := num_clips_toNat_pos hD hS
  refine ⟨planSegments_length D S, ?_, ?_, ?_⟩
  · intro i h
    rw [planSegments_get]
    rfl
  · have hsum : ((planSegments D S).map Prod.snd).sum
        = ∑ i ∈ Finset.range (num_clips D S).toNat,
            clip_duration D S (num_clips D S).toNat i := by
      rw [planSegments, List.map_map, range_map_sum]
      rfl
    rw [hsum]
    obtain ⟨m, hm⟩ : ∃ m, (num_clips D S).toNat = m + 1 :=
      ⟨(num_clips D S).toNat - 1, by omega⟩
    rw [hm, Finset.sum_range_succ]
    have hS' : ∀ i ∈ Finset.range m,
        clip_duration D S (m + 1) i = S := by
      intro i hi
      rw [Finset.mem_range] at hi
      exact if_neg (by omega)
    rw [Finset.sum_congr rfl hS', Finset.sum_const, Finset.card_range,
      clip_duration, if_pos (by omega : m = m + 1 - 1), start_time,
      nsmul_eq_mul]
    ring
  · intro i h
    rw [planSegments_get, planSegments_get]
    have hi : i + 1 < (num_clips D S).toNat := by
      rw [← planSegments_length D S]
      exact h
    have hne : i ≠ (num_clips D S).toNat - 1 := by omega
    simp only [start_time, clip_duration, if_neg hne]
    push_cast
    ring

/-- **C2.**  With `n = ⌈D / S⌉` planned segments, every segment other than the
last has duration exactly `S`, the final one (index `n - 1`) has duration
`D - (n - 1) * S`, and no segment beyond index `n - 1` is ever planned or
produced (the clip list of any run only carries numbers `≤ n`). -/
theorem C2_segment_durations (D S : ℚ) (hD : 0 < D) (hS : 0 < S) :
    (∀ i (h : i < (planSegments D S).length),
       i ≠ (num_clips D S).toNat - 1 →
       ((planSegments D S).get ⟨i, h⟩).2 = S) ∧
    (∀ h : (num_clips D S).toNat - 1 < (planSegments D S).length,
       ((planSegments D S).get ⟨(num_clips D S).toNat - 1, h⟩).2
         = D - (((num_clips D S).toNat - 1 : ℕ) : ℚ) * S) ∧
    (planSegments D S).length = (num_clips D S).toNat ∧
    (∀ run : Nat → ExtractOutcome, ∀ c ∈ splitClips D S run,
       c.number ≤ (num_clips D S).toNat) := by
  refine ⟨?_, ?_, planSegments_length D S, ?_⟩
  · intro i h hne
    rw [planSegments_get]
    exact if_neg hne
  · intro h
    rw [planSegments_get]
    simp [clip_duration, start_time]
  · intro run c hc
    rw [splitClips, List.mem_filterMap] at hc
    obtain ⟨i, hi, hsome⟩ := hc
    rw [List.mem_range] at hi
    by_cases hok : (run i).returncode = 0 ∧ (run i).created
    · rw [if_pos hok] at hsome
      cases hsome
      exact hi
    · rw [if_neg hok] at hsome
      cases hsome

/-- Concrete clip count for the spec's worked example: a 95-second source with
`split_duration = 30` yields `⌈95 / 30⌉ = 4` clips. -/
lemma num_clips_95_30 : num_clips 95 30 = 4 := by
  rw [num_clips, Int.ceil_eq_iff]
  norm_num

/-- Witness for C1 at the spec's example `D = 95`, `S = 30`. -/
theorem C1_segment_plan_witness :
    0 < (95 : ℚ) ∧ 0 < (30 : ℚ) ∧
      ((planSegments 95 30).map Prod.snd).sum = 95 :=
  ⟨by norm_num, by norm_num,
    (C1_segment_plan 95 30 (by norm_num) (by norm_num)).2.2.1⟩

/-- Witness for C2 at the spec's example `D = 95`, `S = 30`. -/
theorem C2_segment_durations_witness :
    0 < (95 : ℚ) ∧ 0 < (30 : ℚ) ∧
      (planSegments 95 30).length = (num_clips 95 30).toNat :=
  ⟨by norm_num, by norm_num,
    (C2_segment_durations 95 30 (by norm_num) (by norm_num)).2.2.1⟩

/-- **C3.**  A clip number appears in the returned `clips_info` list iff its
index is in range and its ffmpeg invocation reported return code 0 with the
output file present; and whatever the per-segment outcomes are, the `/split`
request itself still answers 200 (a failed segment is dropped silently, the
request is not aborted). -/
theorem C3_partial_failure_policy :
    (∀ (D S : ℚ) (run : Nat → ExtractOutcome) (i : ℕ),
       (∃ c ∈ splitClips D S run, c.number = i + 1) ↔
         i < (num_clips D S).toNat ∧
           (run i).returncode = 0 ∧ (run i).created = true) ∧
    (∀ (uploads : List FSEntry) (jid : String) (S : ℚ)
       (durationOf : String → ℚ) (run : Nat → ExtractOutcome)
       (dir0 : Finset String) (v : FSEntry),
       v ∈ uploads → List.isPrefixOf jid.data v.name.data → jid ≠ "" →
       (split_video_endpoint uploads (some jid) S durationOf run dir0).status
         = 200) := by
  constructor
  · intro D S run i
    constructor
    · rintro ⟨c, hc, hnum⟩
      rw [splitClips, List.mem_filterMap] at hc
      obtain ⟨j, hj, hsome⟩ := hc
      rw [List.mem_range] at hj
      by_cases hok : (run j).returncode = 0 ∧ (run j).created
      · rw [if_pos hok] at hsome
        cases hsome
        have hji : j = i := by
          simpa using hnum
        subst hji
        exact ⟨hj, hok.1, hok.2⟩
      · rw [if_neg hok] at hsome
        cases hsome
    · rintro ⟨hi, hrc, hcr⟩
      refine ⟨_, List.mem_filterMap.mpr
        ⟨i, List.mem_range.mpr hi, if_pos ⟨hrc, hcr⟩⟩, rfl⟩
  · intro uploads jid S durationOf run dir0 v hv hpre hne
    rw [split_video_endpoint, if_neg hne]
    have hmem : v ∈ uploads.filter
        (fun e => List.isPrefixOf jid.data e.name.data) :=
      List.mem_filter.mpr ⟨hv, hpre⟩
    cases hfil : uploads.filter
        (fun e => List.isPrefixOf jid.data e.name.data) with
    | nil =>
        rw [hfil] at hmem
        cases hmem
    | cons w ws =>
        rfl

/-- Witness for C3: with segment 0 failing (nonzero return code) and segment 1
succeeding, clip number 2 is returned, clip number 1 is not, and the request
still answers 200. -/
theorem C3_partial_failure_policy_witness :
    (¬ ∃ c ∈ splitClips 95 30
        (fun i => if i = 0 then ⟨1, true, 0⟩ else ⟨0, true, 0⟩),
        c.number = 0 + 1) ∧
    (∃ c ∈ splitClips 95 30
        (fun i => if i = 0 then ⟨1, true, 0⟩ else ⟨0, true, 0⟩),
        c.number = 1 + 1) ∧
    (split_video_endpoint [⟨"job1_v.mp4", 0, true⟩] (some "job1") 30
        (fun _ => 95)
        (fun i => if i = 0 then ⟨1, true, 0⟩ else ⟨0, true, 0⟩) ∅).status
      = 200 := by
  refine ⟨?_, ?_, ?_⟩
  · intro h
    have := (C3_partial_failure_policy.1 95 30
      (fun i => if i = 0 then ⟨1, true, 0⟩ else ⟨0, true, 0⟩) 0).mp h
    simp at this
  · refine (C3_partial_failure_policy.1 95 30
      (fun i => if i = 0 then ⟨1, true, 0⟩ else ⟨0, true, 0⟩) 1).mpr ⟨?_, by simp, by simp⟩
    rw [num_clips_95_30]
    decide
  · exact C3_partial_failure_policy.2 [⟨"job1_v.mp4", 0, true⟩] "job1" 30
      (fun _ => 95) (fun i => if i = 0 then ⟨1, true, 0⟩ else ⟨0, true, 0⟩) ∅
      ⟨"job1_v.mp4", 0, true⟩ (by simp) (by decide) (by decide)

/-! ## Clip record invariants -/

/-- Every generated output filename ends in `.mp4`. -/
lemma endsWithMp4_reelName (n : ℕ) : endsWithMp4 (reelName n) = true := by
  rw [endsWithMp4, reelName]
  refine List.isSuffixOf_iff_suffix.mpr ?_
  rw [String.data_append, String.data_append]
  exact List.suffix_append _ _

/-- **C9.**  Every returned clip record is internally consistent: its end
offset is its start plus its duration, its start is `(number - 1) * S`, its
filename is `reel_` followed by the zero-padded (width 2) decimal number and
`.mp4`, and the clip numbers are strictly increasing along the list. -/
theorem C9_clip_record_invariants (D S : ℚ) (run : Nat → ExtractOutcome) :
    (∀ c ∈ splitClips D S run,
       c.«end» = c.start + c.duration ∧
       c.start = ((c.number : ℚ) - 1) * S ∧
       c.filename = "reel_"
         ++ (if c.number < 10 then "0" ++ toString c.number
             else toString c.number) ++ ".mp4") ∧
    (splitClips D S run).Pairwise (fun a b => a.number < b.number) := by
  constructor
  · intro c hc
    rw [splitClips, List.mem_filterMap] at hc
    obtain ⟨i, _, hsome⟩ := hc
    by_cases hok : (run i).returncode = 0 ∧ (run i).created
    · rw [if_pos hok] at hsome
      cases hsome
      refine ⟨rfl, ?_, rfl⟩
      show start_time S i = ((i + 1 : ℕ) - 1 : ℚ) * S
      rw [start_time]
      push_cast
      ring
    · rw [if_neg hok] at hsome
      cases hsome
  · rw [splitClips]
    refine List.pairwise_filterMap.mpr
      ((List.pairwise_lt_range _).imp ?_)
    intro i j hij
    intro b hb b' hb'
    have hnb : b.number = i + 1 := by
      by_cases hok : (run i).returncode = 0 ∧ (run i).created
      · rw [if_pos hok, Option.mem_def] at hb
        cases hb
        rfl
      · rw [if_neg hok] at hb
        cases hb
    have hnb' : b'.number = j + 1 := by
      by_cases hok : (run j).returncode = 0 ∧ (run j).created
      · rw [if_pos hok, Option.mem_def] at hb'
        cases hb'
        rfl
      · rw [if_neg hok] at hb'
        cases hb'
    omega

/-- Witness for C9: with every extraction succeeding on the 95-second example,
some returned clip exists and satisfies the invariant. -/
theorem C9_clip_record_invariants_witness :
    ∃ c ∈ splitClips 95 30 (fun _ => ⟨0, true, 1048576⟩),
      c.«end» = c.start + c.duration ∧ c.start = ((c.number : ℚ) - 1) * 30 := by
  have h0 : (0 : ℕ) < (num_clips 95 30).toNat := by
    rw [num_clips_95_30]
    decide
  have hmem : (⟨0 + 1, reelName (0 + 1), start_time 30 0,
      start_time 30 0 + clip_duration 95 30 (num_clips 95 30).toNat 0,
      clip_duration 95 30 (num_clips 95 30).toNat 0,
      ((1048576 : ℕ) : ℚ) / (1024 * 1024)⟩ : Clip)
      ∈ splitClips 95 30 (fun _ => ⟨0, true, 1048576⟩) := by
    rw [splitClips]
    exact List.mem_filterMap.mpr ⟨0, List.mem_range.mpr h0, if_pos ⟨rfl, rfl⟩⟩
  refine ⟨_, hmem, ?_, ?_⟩
  · exact ((C9_clip_record_invariants 95 30
      (fun _ => ⟨0, true, 1048576⟩)).1 _ hmem).1
  · exact ((C9_clip_record_invariants 95 30
      (fun _ => ⟨0, true, 1048576⟩)).1 _ hmem).2.1

/-! ## Archive contents -/

/-- **C4 (amended).**  Every filename returned by the split is stored in the
archive (bare name, `.mp4`-matched).  Conversely, the archive is exactly the
set of `.mp4` files of the job's output directory, so it coincides with the
returned set provided the directory held no `.mp4` file before the split and
no failed extraction left an output file behind.  Without those provisos the
archive may strictly contain the returned set (see the counterexample). -/
theorem C4_archive_contents (D S : ℚ) (run : Nat → ExtractOutcome)
    (dir0 : Finset String) :
    (∀ c ∈ splitClips D S run,
       c.filename ∈ create_zip (splitDirAfter dir0 D S run)) ∧
    ((∀ f ∈ dir0, endsWithMp4 f = false) →
     (∀ i, i < (num_clips D S).toNat → (run i).created = true →
        (run i).returncode = 0) →
     ∀ f, f ∈ create_zip (splitDirAfter dir0 D S run) ↔
        ∃ c ∈ splitClips D S run, c.filename = f) := by
  have hmemclip : ∀ c ∈ splitClips D S run,
      ∃ i, i < (num_clips D S).toNat ∧ (run i).returncode = 0 ∧
        (run i).created = true ∧ c.filename = reelName (i + 1) := by
    intro c hc
    rw [splitClips, List.mem_filterMap] at hc
    obtain ⟨i, hi, hsome⟩ := hc
    rw [List.mem_range] at hi
    by_cases hok : (run i).returncode = 0 ∧ (run i).created
    · rw [if_pos hok] at hsome
      cases hsome
      exact ⟨i, hi, hok.1, hok.2, rfl⟩
    · rw [if_neg hok] at hsome
      cases hsome
  constructor
  · intro c hc
    obtain ⟨i, hi, hrc, hcr, hfn⟩ := hmemclip c hc
    rw [hfn, create_zip, Finset.mem_filter]
    refine ⟨?_, endsWithMp4_reelName _⟩
    rw [splitDirAfter]
    refine Finset.mem_union_right _ (Finset.mem_image.mpr ⟨i, ?_, rfl⟩)
    exact Finset.mem_filter.mpr ⟨Finset.mem_range.mpr hi, hcr⟩
  · intro h0 h1 f
    constructor
    · intro hf
      rw [create_zip, Finset.mem_filter, splitDirAfter,
        Finset.mem_union] at hf
      obtain ⟨hin, hmp4⟩ := hf
      cases hin with
      | inl hd =>
          rw [h0 f hd] at hmp4
          cases hmp4
      | inr him =>
          obtain ⟨i, hi, rfl⟩ := Finset.mem_image.mp him
          rw [Finset.mem_filter, Finset.mem_range] at hi
          have hrc : (run i).returncode = 0 := h1 i hi.1 hi.2
          refine ⟨_, List.mem_filterMap.mpr
            ⟨i, List.mem_range.mpr hi.1, if_pos ⟨hrc, hi.2⟩⟩, rfl⟩
    · rintro ⟨c, hc, hfc⟩
      obtain ⟨i, hi, hrc, hcr, hfn⟩ := hmemclip c hc
      subst hfc
      rw [hfn, create_zip, Finset.mem_filter]
      refine ⟨?_, endsWithMp4_reelName _⟩
      rw [splitDirAfter]
      refine Finset.mem_union_right _ (Finset.mem_image.mpr ⟨i, ?_, rfl⟩)
      exact Finset.mem_filter.mpr ⟨Finset.mem_range.mpr hi, hcr⟩

/-- Counterexample to C4 as stated: a 10-second source split with `S = 30`
plans one segment; its ffmpeg run creates the output file but exits with
return code 1, so the clip is not returned — yet `create_zip` archives the
file anyway.  The archive then contains a file that is not among the returned
filenames. -/
theorem C4_counterexample :
    splitClips 10 30 (fun _ => ⟨1, true, 0⟩) = [] ∧
    "reel_01.mp4" ∈ create_zip (splitDirAfter ∅ 10 30 (fun _ => ⟨1, true, 0⟩)) ∧
    ¬ (∀ f, f ∈ create_zip (splitDirAfter ∅ 10 30 (fun _ => ⟨1, true, 0⟩)) ↔
        ∃ c ∈ splitClips 10 30 (fun _ => ⟨1, true, 0⟩), c.filename = f) := by
  have h1 : num_clips 10 30 = 1 := by
    rw [num_clips, Int.ceil_eq_iff]
    norm_num
  have hclips : splitClips 10 30 (fun _ => ⟨1, true, 0⟩) = [] := by
    rw [splitClips, h1]
    simp
  have hzip : "reel_01.mp4" ∈
      create_zip (splitDirAfter ∅ 10 30 (fun _ => ⟨1, true, 0⟩)) := by
    rw [create_zip, Finset.mem_filter]
    constructor
    · rw [splitDirAfter, h1]
      refine Finset.mem_union_right _ (Finset.mem_image.mpr ⟨0, ?_, rfl⟩)
      exact Finset.mem_filter.mpr ⟨Finset.mem_range.mpr (by decide), rfl⟩
    · exact endsWithMp4_reelName 1
  refine ⟨hclips, hzip, fun hall => ?_⟩
  obtain ⟨c, hc, _⟩ := (hall "reel_01.mp4").mp hzip
  rw [hclips] at hc
  cases hc

/-- Witness for the amended C4 with an empty initial directory and honest
extraction outcomes: archive membership coincides with the returned set. -/
theorem C4_archive_contents_witness :
    "reel_01.mp4" ∈
        create_zip (splitDirAfter ∅ 95 30 (fun _ => ⟨0, true, 0⟩)) ↔
      ∃ c ∈ splitClips 95 30 (fun _ => ⟨0, true, 0⟩),
        c.filename = "reel_01.mp4" :=
  (C4_archive_contents 95 30 (fun _ => ⟨0, true, 0⟩) ∅).2
    (fun f hf => absurd hf (Finset.not_mem_empty f))
    (fun _ _ _ => rfl) "reel_01.mp4"

/-! ## Upload validation and probe failure -/

/-- Membership in the swept folder: an entry survives `cleanup_old_files` iff
it was present and is not older than one hour. -/
lemma mem_cleanup_old_files (now : ℚ) (l : List FSEntry) (e : FSEntry) :
    e ∈ cleanup_old_files now l ↔
      e ∈ l ∧ ¬ (now - e.mtime > oneHour) := by
  rw [cleanup_old_files, List.mem_filter]
  refine and_congr_right fun _ => ?_
  by_cases hf : e.isFile <;> by_cases hc : now - e.mtime > oneHour <;>
    simp [hf, hc]

/-- **C5 (amended).**  An upload whose filename fails the extension check is
answered with 400 and stores nothing: the `uploads` folder afterwards is
exactly the result of the initial retention sweep, so no entry is added and
every surviving entry was already present (the sweep may however have deleted
entries older than one hour, so the folder is not literally unchanged; see the
counterexample). -/
theorem C5_invalid_extension_upload (now : ℚ) (uploads : List FSEntry)
    (fn : String) (secure : String → String) (job_id : String)
    (probe_ok : Bool) (hfn : allowed_file fn = false) :
    (upload_video now uploads (some fn) secure job_id probe_ok).status = 400 ∧
    (upload_video now uploads (some fn) secure job_id probe_ok).uploads
      = cleanup_old_files now uploads ∧
    ∀ e ∈ (upload_video now uploads (some fn) secure job_id probe_ok).uploads,
      e ∈ uploads := by
  have hres : upload_video now uploads (some fn) secure job_id probe_ok
      = ⟨400, cleanup_old_files now uploads⟩ := by
    rw [upload_video]
    by_cases hemp : fn = ""
    · rw [if_pos hemp]
    · rw [if_neg hemp, if_pos (by rw [hfn]; exact Bool.false_ne_true)]
  rw [hres]
  exact ⟨rfl, rfl, fun e he => ((mem_cleanup_old_files now uploads e).mp he).1⟩

/-- Counterexample to C5 as stated: the uploads folder holds a two-hour-old
file; a request with a disallowed extension is answered 400 and stores
nothing, but the folder is NOT unchanged — the sweep that runs at the start of
every upload request has deleted the stale entry. -/
theorem C5_counterexample :
    (upload_video 7200 [⟨"stale.mp4", 0, true⟩] (some "clip.txt")
        id "job" true).status = 400 ∧
    (upload_video 7200 [⟨"stale.mp4", 0, true⟩] (some "clip.txt")
        id "job" true).uploads ≠ [⟨"stale.mp4", 0, true⟩] := by
  have hold : oneHour < (7200 : ℚ) := by
    rw [oneHour]
    norm_num
  have hclean : cleanup_old_files 7200 [⟨"stale.mp4", 0, true⟩] = [] := by
    rw [cleanup_old_files]
    simp [hold]
  have hext : allowed_file "clip.txt" = false := by decide
  have hres : upload_video 7200 [⟨"stale.mp4", 0, true⟩] (some "clip.txt")
      id "job" true = ⟨400, []⟩ := by
    rw [upload_video,
      if_neg (by decide : ¬ ("clip.txt" : String) = ""),
      if_pos (by rw [hext]; exact Bool.false_ne_true), hclean]
  rw [hres]
  exact ⟨rfl, by simp⟩

/-- Witness for the amended C5. -/
theorem C5_invalid_extension_upload_witness :
    allowed_file "clip.txt" = false ∧
    (upload_video 0 [] (some "clip.txt") id "job" true).status = 400 :=
  ⟨by decide,
    (C5_invalid_extension_upload 0 [] "clip.txt" id "job" true (by decide)).1⟩

/-- **C6 (amended).**  When the metadata probe fails after the file was
stored, the handler deletes the stored file again and answers 500: provided
the generated job identifier is fresh (no swept entry already bears the
stored name), the `uploads` folder afterwards equals its post-sweep state, so
no artifact of the job remains.  As with C5, entries older than one hour have
still been deleted by the initial sweep, so the folder need not equal its
pre-request state (see the counterexample). -/
theorem C6_probe_failure_upload (now : ℚ) (uploads : List FSEntry)
    (fn : String) (secure : String → String) (job_id : String)
    (hfn : allowed_file fn = true)
    (hfresh : ∀ e ∈ cleanup_old_files now uploads,
       e.name ≠ job_id ++ "_" ++ secure fn) :
    (upload_video now uploads (some fn) secure job_id false).status = 500 ∧
    (upload_video now uploads (some fn) secure job_id false).uploads
      = cleanup_old_files now uploads := by
  have hemp : ¬ fn = "" := by
    intro h
    rw [h] at hfn
    exact absurd hfn (by decide)
  have hsf : (cleanup_old_files now uploads).filter
      (fun e => e.name ≠ job_id ++ "_" ++ secure fn)
      = cleanup_old_files now uploads :=
    List.filter_eq_self.mpr fun e he => decide_eq_true (hfresh e he)
  have hstored : (decide (¬ (⟨job_id ++ "_" ++ secure fn, now, true⟩ :
      FSEntry).name = job_id ++ "_" ++ secure fn)) = false := by
    simp
  rw [upload_video, if_neg hemp, if_neg (by rw [hfn]; simp)]
  refine ⟨rfl, ?_⟩
  show ((cleanup_old_files now uploads).filter _ ++ _).filter _ = _
  rw [List.filter_append, hsf, hsf, List.filter_cons, hstored]
  simp

/-- Counterexample to C6 as stated: with a two-hour-old file in the uploads
folder, a probe failure yields 500 and no artifact of the job, but the
folder is not "as before the request" — the initial sweep deleted the stale
entry. -/
theorem C6_counterexample :
    (upload_video 7200 [⟨"stale.mp4", 0, true⟩] (some "v.mp4")
        id "job" false).status = 500 ∧
    (upload_video 7200 [⟨"stale.mp4", 0, true⟩] (some "v.mp4")
        id "job" false).uploads ≠ [⟨"stale.mp4", 0, true⟩] := by
  have hold : oneHour < (7200 : ℚ) := by
    rw [oneHour]
    norm_num
  have hclean : cleanup_old_files 7200 [⟨"stale.mp4", 0, true⟩] = [] := by
    rw [cleanup_old_files]
    simp [hold]
  have hext : allowed_file "v.mp4" = true := by decide
  constructor
  · rw [upload_video, if_neg (by decide : ¬ ("v.mp4" : String) = ""),
      if_neg (by rw [hext]; simp)]
    rfl
  · rw [upload_video, if_neg (by decide : ¬ ("v.mp4" : String) = ""),
      if_neg (by rw [hext]; simp), hclean]
    decide

/-- Witness for the amended C6. -/
theorem C6_probe_failure_upload_witness :
    allowed_file "v.mp4" = true ∧
    (upload_video 0 [] (some "v.mp4") id "job" false).status = 500 :=
  ⟨by decide,
    (C6_probe_failure_upload 0 [] "v.mp4" id "job" (by decide)
      (by intro e he; simp [cleanup_old_files] at he)).1⟩

/-! ## Idempotence of splitting -/

/-- The status and clip list of `/split` do not depend on the previous
contents of the job's output directory (the schedule is recomputed from the
probed duration, and every output name is overwritten with `-y`). -/
lemma split_video_endpoint_dir_irrelevant (uploads : List FSEntry)
    (job_id : Option String) (S : ℚ) (durationOf : String → ℚ)
    (run : Nat → ExtractOutcome) (dirA dirB : Finset String) :
    (split_video_endpoint uploads job_id S durationOf run dirA).clips
      = (split_video_endpoint uploads job_id S durationOf run dirB).clips ∧
    (split_video_endpoint uploads job_id S durationOf run dirA).status
      = (split_video_endpoint uploads job_id S durationOf run dirB).status := by
  cases job_id with
  | none => exact ⟨rfl, rfl⟩
  | some jid =>
    rw [split_video_endpoint, split_video_endpoint]
    by_cases hj : jid = ""
    · rw [if_pos hj, if_pos hj]
      exact ⟨rfl, rfl⟩
    · rw [if_neg hj, if_neg hj]
      cases uploads.filter (fun e => List.isPrefixOf jid.data e.name.data) with
      | nil => exact ⟨rfl, rfl⟩
      | cons v t => exact ⟨rfl, rfl⟩

/-- **C7.**  Splitting the same job twice with the same split duration — the
uploads folder untouched in between, the probe and the per-segment
extractions behaving the same both times — returns the same status, the same
clip count, and the same clip list (hence identical start/end boundaries);
the only state the first run changed that the second can see, the job's
output directory, does not influence the response. -/
theorem C7_split_idempotent (uploads : List FSEntry) (job_id : Option String)
    (S : ℚ) (durationOf : String → ℚ) (run : Nat → ExtractOutcome)
    (dir0 : Finset String) :
    (split_video_endpoint uploads job_id S durationOf run
        (split_video_endpoint uploads job_id S durationOf run dir0).outDir).clips
      = (split_video_endpoint uploads job_id S durationOf run dir0).clips ∧
    (split_video_endpoint uploads job_id S durationOf run
        (split_video_endpoint uploads job_id S durationOf run dir0).outDir).clips.length
      = (split_video_endpoint uploads job_id S durationOf run dir0).clips.length ∧
    (split_video_endpoint uploads job_id S durationOf run
        (split_video_endpoint uploads job_id S durationOf run dir0).outDir).status
      = (split_video_endpoint uploads job_id S durationOf run dir0).status := by
  obtain ⟨hc, hs⟩ := split_video_endpoint_dir_irrelevant uploads job_id S
    durationOf run
    (split_video_endpoint uploads job_id S durationOf run dir0).outDir dir0
  exact ⟨hc, by rw [hc], hs⟩

/-! ## Retention sweep -/

/-- **C8.**  The sweep run at the start of every upload request deletes from
either storage folder exactly the entries (files or directories alike) whose
last-modified time lies strictly more than one hour before `now`, keeps every
entry within the hour, and leaves no over-age entry behind. -/
theorem C8_retention_sweep (now : ℚ) (uploadsDir outputsDir : List FSEntry) :
    (∀ e, e ∈ cleanup_old_files now uploadsDir ↔
       e ∈ uploadsDir ∧ ¬ (now - e.mtime > oneHour)) ∧
    (∀ e, e ∈ cleanup_old_files now outputsDir ↔
       e ∈ outputsDir ∧ ¬ (now - e.mtime > oneHour)) ∧
    (∀ e ∈ cleanup_old_files now uploadsDir, ¬ (now - e.mtime > oneHour)) ∧
    (∀ e ∈ cleanup_old_files now outputsDir, ¬ (now - e.mtime > oneHour)) :=
  ⟨fun e => mem_cleanup_old_files now uploadsDir e,
   fun e => mem_cleanup_old_files now outputsDir e,
   fun e he => ((mem_cleanup_old_files now uploadsDir e).mp he).2,
   fun e he => ((mem_cleanup_old_files now outputsDir e).mp he).2⟩

/-- Witness for C8: a fresh entry survives the sweep, a two-hour-old entry
does not. -/
theorem C8_retention_sweep_witness :
    (⟨"fresh.mp4", 7000, true⟩ : FSEntry)
        ∈ cleanup_old_files 7200 [⟨"fresh.mp4", 7000, true⟩] ∧
    ¬ (⟨"stale.mp4", 0, true⟩ : FSEntry)
        ∈ cleanup_old_files 7200 [⟨"stale.mp4", 0, true⟩] := by
  constructor
  · exact (C8_retention_sweep 7200 [⟨"fresh.mp4", 7000, true⟩] []).1
      ⟨"fresh.mp4", 7000, true⟩ |>.mpr
      ⟨by simp, by rw [oneHour]; norm_num⟩
  · intro h
    have := ((C8_retention_sweep 7200 [⟨"stale.mp4", 0, true⟩] []).1
      ⟨"stale.mp4", 0, true⟩ |>.mp h).2
    rw [oneHour] at this
    norm_num at this

/-! ## The extension check -/

/-- Helper: `takeWhile` swallows a block of satisfying elements and stops at
the first failing one. -/
lemma takeWhile_append_cons (p : Char → Bool) (xs ys : List Char) (y : Char)
    (hxs : ∀ c ∈ xs, p c = true) (hy : p y = false) :
    (xs ++ y :: ys).takeWhile p = xs := by
  induction xs with
  | nil => simp [List.takeWhile_cons, hy]
  | cons a t ih =>
      have ha := hxs a (List.mem_cons_self a t)
      rw [List.cons_append, List.takeWhile_cons, ha,
        ih (fun c hc => hxs c (List.mem_cons_of_mem a hc))]
      simp

/-- Helper: a list containing a dot splits at the first dot. -/
lemma exists_split_at_dot :
    ∀ l : List Char, '.' ∈ l →
      ∃ post, l = l.takeWhile (fun c => c ≠ '.') ++ '.' :: post := by
  intro l hl
  induction l with
  | nil => cases hl
  | cons c t ih =>
      by_cases hc : c = '.'
      · subst hc
        refine ⟨t, ?_⟩
        rw [List.takeWhile_cons]
        simp
      · have ht : '.' ∈ t := by
          cases List.mem_cons.mp hl with
          | inl h => exact absurd h.symm hc
          | inr h => exact h
        obtain ⟨post, hpost⟩ := ih ht
        refine ⟨post, ?_⟩
        rw [List.takeWhile_cons, decide_eq_true (show c ≠ '.' from hc)]
        rw [if_pos rfl, List.cons_append]
        exact congrArg (c :: ·) hpost

/-- Helper: `rsplit('.', 1)` semantics of `afterLastDot` — a string containing
a dot decomposes as everything up to the last dot, the dot, and a dot-free
tail, the tail being `afterLastDot`. -/
lemma afterLastDot_decomp (s : List Char) (h : '.' ∈ s) :
    ∃ pre, s = pre ++ '.' :: afterLastDot s ∧ '.' ∉ afterLastDot s := by
  have hrev : '.' ∈ s.reverse := List.mem_reverse.mpr h
  obtain ⟨post, hpost⟩ := exists_split_at_dot s.reverse hrev
  refine ⟨post.reverse, ?_, ?_⟩
  · have hs := congrArg List.reverse hpost
    rw [List.reverse_reverse] at hs
    rw [afterLastDot]
    calc s = (s.reverse.takeWhile (fun c => c ≠ '.') ++ '.' :: post).reverse :=
          hs
    _ = post.reverse ++ '.' :: (s.reverse.takeWhile (fun c => c ≠ '.')).reverse := by
          rw [List.reverse_append, List.reverse_cons, List.append_assoc,
            List.singleton_append]
  · intro hmem
    rw [afterLastDot, List.mem_reverse] at hmem
    have := List.mem_takeWhile_imp hmem
    simp at this

/-- Helper: `afterLastDot` of a decomposed string is its dot-free tail. -/
lemma afterLastDot_of_append (pre ext : List Char) (hext : '.' ∉ ext) :
    afterLastDot (pre ++ '.' :: ext) = ext := by
  have hall : ∀ c ∈ ext.reverse, decide (c ≠ '.') = true := by
    intro c hc
    refine decide_eq_true ?_
    intro hceq
    subst hceq
    exact hext (List.mem_reverse.mp hc)
  have htw := takeWhile_append_cons (fun c => c ≠ '.') ext.reverse pre.reverse
    '.' hall (by simp)
  rw [afterLastDot, List.reverse_append, List.reverse_cons, List.append_assoc,
    List.singleton_append, htw, List.reverse_reverse]

/-- **C10.**  The extension check accepts a filename iff it contains a dot and
the characters after its LAST dot, lowercased, form an allowed extension;
consequently the check is case-insensitive (`VIDEO.MP4` passes) and an upload
whose filename has no dot at all is always answered with 400. -/
theorem C10_extension_check :
    (∀ fn : String, allowed_file fn = true ↔
       ∃ pre ext : List Char, fn.data = pre ++ '.' :: ext ∧ '.' ∉ ext ∧
         String.mk (ext.map Char.toLower) ∈ ALLOWED_EXTENSIONS) ∧
    allowed_file "VIDEO.MP4" = true ∧
    (∀ (now : ℚ) (uploads : List FSEntry) (fn : String)
       (secure : String → String) (job_id : String) (probe_ok : Bool),
       '.' ∉ fn.data →
       (upload_video now uploads (some fn) secure job_id probe_ok).status
         = 400) := by
  refine ⟨?_, by decide, ?_⟩
  · intro fn
    constructor
    · intro h
      rw [allowed_file, Bool.and_eq_true] at h
      obtain ⟨hdot, hcont⟩ := h
      have hdotmem : '.' ∈ fn.data := List.elem_iff.mp hdot
      obtain ⟨pre, hpre, hnot⟩ := afterLastDot_decomp fn.data hdotmem
      exact ⟨pre, afterLastDot fn.data, hpre, hnot, List.elem_iff.mp hcont⟩
    · rintro ⟨pre, ext, hdata, hnot, hmem⟩
      rw [allowed_file, Bool.and_eq_true]
      refine ⟨List.elem_iff.mpr ?_, ?_⟩
      · rw [hdata]
        exact List.mem_append_right _ (List.mem_cons_self _ _)
      · rw [hdata, afterLastDot_of_append pre ext hnot]
        exact List.elem_iff.mpr hmem
  · intro now uploads fn secure job_id probe_ok h
    by_cases hemp : fn = ""
    · rw [upload_video, if_pos hemp]
    · have hcf : fn.data.contains '.' = false := by
        cases hcb : fn.data.contains '.' with
        | false => rfl
        | true => exact absurd (List.elem_iff.mp hcb) h
      have haf : allowed_file fn = false := by
        rw [allowed_file, hcf, Bool.false_and]
      rw [upload_video, if_neg hemp,
        if_pos (by rw [haf]; exact Bool.false_ne_true)]

/-- Witness for C10: a dotless filename is rejected with 400. -/
theorem C10_extension_check_witness :
    (upload_video 0 [] (some "noext") id "job" true).status = 400 :=
  C10_extension_check.2.2 0 [] "noext" id "job" true (by decide)

end ReelSplitter
